import Mathlib

/-!
Shallow embedding of `hmm.py` (Forward Filtering, Backward Sampling) and
proofs about it.

Modelling conventions:
* numpy float arrays are modelled as `List ℝ` (vectors) and `List (List ℝ)`
  (matrices); exact real arithmetic stands in for IEEE floats.
* The cumulative-walk sampler `sample` is generic over a linearly ordered
  additive monoid (the Python function is duck-typed), so that concrete
  executions can be checked by `decide` over `ℤ` while the log-space
  pipeline instantiates it at `ℝ`.
* Python dynamic errors (IndexError on `likelihoods[0]` for an empty
  sequence, ZeroDivisionError in `generate_0d_T_mat` for `n = 1`) are made
  explicit with `Except PyError`.  The error kinds named by the design
  document (`EmptySequenceError`) are constructors of the same type so that
  statements about them can be written; the Python code never produces them.
* `npr.rand` draws are injected as an explicit list of uniform values, one
  per `smart_sampling` call, in the order the calls happen.
* `Real.log 0 = 0` in Lean while `np.log(0) = -inf`; concrete evaluations
  below are chosen so that every sampled index agrees under both
  conventions (this is noted where it matters).
-/

set_option linter.unusedVariables false

/-- Error kinds: `indexError` and `zeroDivisionError` are what the Python
code actually raises; `emptySequenceError` is the name the design document
gives to the empty-time-axis failure. -/
inductive PyError : Type where
  | indexError : PyError
  | zeroDivisionError : PyError
  | emptySequenceError : PyError
  deriving DecidableEq, Repr

/-- Loop body of `sample(v, r)` from hmm.py: `rolling` is the accumulated
partial sum, `i` the current index.  Falling off the end of the list is
Python's implicit `return None`.  The Python function is duck-typed over
the numeric entries, so the embedding is generic over an ordered additive
monoid; the log-space pipeline instantiates it at `ℝ`, while concrete
witnesses use `ℤ` (where `decide` can evaluate). -/
def sampleGo {α : Type} [AddCommMonoid α] [LinearOrder α] (r : α) :
    List α → α → ℕ → Option ℕ
  | [], _, _ => none
  | x :: xs, rolling, i =>
      if r ≤ rolling + x then some i else sampleGo r xs (rolling + x) (i + 1)

/-- `sample(v, r)` from hmm.py: walk the cumulative sums of `v` in index
order and return the first index whose running sum satisfies `r ≤ rolling`;
return `none` (Python `None`) if no index qualifies. -/
def sample {α : Type} [AddCommMonoid α] [LinearOrder α] (v : List α) (r : α) : Option ℕ :=
  sampleGo r v 0 0

theorem sampleGo_eq_none {α : Type} [AddCommMonoid α] [LinearOrder α] (r : α) :
    ∀ (v : List α) (c : α) (i : ℕ),
      (∀ j, j < v.length → c + (v.take (j + 1)).sum < r) →
      sampleGo r v c i = none := by
  intro v
  induction v with
  | nil => intro c i _; rfl
  | cons x xs ih =>
      intro c i h
      have h0 : c + x < r := by
        have := h 0 (Nat.succ_pos _)
        simpa using this
      rw [sampleGo, if_neg (not_le.mpr h0)]
      apply ih
      intro j hj
      have := h (j + 1) (by simpa using Nat.succ_lt_succ hj)
      calc c + x + (xs.take (j + 1)).sum
          = c + ((x :: xs).take (j + 1 + 1)).sum := by
            simp [List.take_succ_cons, add_assoc]
        _ < r := this

theorem sampleGo_eq_some {α : Type} [AddCommMonoid α] [LinearOrder α] (r : α) :
    ∀ (v : List α) (c : α) (k : ℕ) (i : ℕ),
      i < v.length →
      r ≤ c + (v.take (i + 1)).sum →
      (∀ j, j < i → c + (v.take (j + 1)).sum < r) →
      sampleGo r v c k = some (k + i) := by
  intro v
  induction v with
  | nil => intro c k i hi; exact absurd hi (by simp)
  | cons x xs ih =>
      intro c k i hi hr hlt
      cases i with
      | zero =>
          have : r ≤ c + x := by simpa using hr
          rw [sampleGo, if_pos this, Nat.add_zero]
      | succ i' =>
          have hx : c + x < r := by
            have := hlt 0 (Nat.succ_pos _)
            simpa using this
          rw [sampleGo, if_neg (not_le.mpr hx)]
          have := ih (c + x) (k + 1) i'
            (by simpa using Nat.lt_of_succ_lt_succ hi)
            (by
              have : r ≤ c + (x + (xs.take (i' + 1)).sum) := by
                simpa [List.take_succ_cons] using hr
              simpa [add_assoc] using this)
            (by
              intro j hj
              have := hlt (j + 1) (Nat.succ_lt_succ hj)
              have h2 : c + (x + (xs.take (j + 1)).sum) < r := by
                simpa [List.take_succ_cons] using this
              simpa [add_assoc] using h2)
          rw [this]
          congr 1
          omega

noncomputable section

/-- `np.max` over a 1-D array (`np.max` errors on an empty array; `0` there
is unused junk). -/
def np_max (l : List ℝ) : ℝ :=
  match l with
  | [] => 0
  | x :: xs => xs.foldl max x

/-- The row sum `np.sum(B, axis=1)` that `smart_sampling` divides by, with
`B = np.exp(A - np.max(A, axis=1))` for one row `a`. -/
def softmax_divisor (a : List ℝ) : ℝ :=
  (a.map fun x => Real.exp (x - np_max a)).sum

/-- One row of `smart_sampling`'s normalization: subtract the row max,
exponentiate, divide by the row sum. -/
def softmax_row (a : List ℝ) : List ℝ :=
  (a.map fun x => Real.exp (x - np_max a)).map fun y => y / softmax_divisor a

/-- `smart_sampling(A)` from hmm.py, with the `npr.rand(length)` draws
injected as the explicit list `draws` (one uniform value per row). -/
def smart_sampling (A : List (List ℝ)) (draws : List ℝ) : List (Option ℕ) :=
  (A.zip draws).map fun p => sample (softmax_row p.1) p.2

/-- `lognormalize(x)` from hmm.py: subtract `np.logaddexp.reduce(x)`, which
for a nonempty vector equals `log (Σ exp xᵢ)`. -/
def lognormalize (x : List ℝ) : List ℝ :=
  x.map fun t => t - Real.log ((x.map Real.exp).sum)

/-- Elementwise numpy addition of two equal-length vectors. -/
def listAdd (a b : List ℝ) : List ℝ :=
  List.zipWith (fun x y => x + y) a b

/-- `np.dot(T, v)` for a matrix `T` (list of rows) and a vector `v`. -/
def matVec (T : List (List ℝ)) (v : List ℝ) : List ℝ :=
  T.map fun row => ((row.zip v).map fun p => p.1 * p.2).sum

/-- `T**beta`: elementwise real power of a matrix (numpy broadcasting). -/
def matPow (T : List (List ℝ)) (β : ℝ) : List (List ℝ) :=
  T.map fun row => row.map fun x => x ^ β

/-- The `for p1 in rest_of_likelihoods` loop of `hmm_forward`: `lastp`
tracks the previous filtering distribution, and each iteration appends
`lognormalize(p1 + log(np.dot(T, np.exp(lastp))))`. -/
def forward_loop (T : List (List ℝ)) : List ℝ → List (List ℝ) → List (List ℝ)
  | _, [] => []
  | lastp, p1 :: rest =>
      let v := lognormalize (listAdd p1 ((matVec T (lastp.map Real.exp)).map Real.log))
      v :: forward_loop T v rest

/-- `hmm_forward(likelihoods, prior, tempering=[alpha, beta])` from hmm.py;
`T` is the transition matrix closed over by `build_hmm`.  On an empty
`likelihoods` the Python code hits `likelihoods[0]` and raises IndexError.
The first step is `lognormalize(likelihoods[0] + log(np.dot(T**beta,
np.exp(prior)**alpha)))`; the remaining steps are `forward_loop`. -/
def hmm_forward (T : List (List ℝ)) (likelihoods : List (List ℝ)) (prior : List ℝ)
    (α β : ℝ) : Except PyError (List (List ℝ)) :=
  match likelihoods with
  | [] => .error .indexError
  | l0 :: rest =>
      let first := lognormalize (listAdd l0
        ((matVec (matPow T β) (prior.map fun p => Real.exp p ^ α)).map Real.log))
      .ok (first :: forward_loop T first rest)

/-- The forward recurrence exactly as the design document states it:
`spec 0 = lognormalize(likelihoods[0] + log(T^β · exp(prior)^α))` with the
tempering exponents applied elementwise before the linear-space
matrix-vector product, and
`spec (t+1) = lognormalize(likelihoods[t+1] + log(T · exp(spec t)))`
with no tempering. -/
def forward_spec (T : List (List ℝ)) (likelihoods : List (List ℝ)) (prior : List ℝ)
    (α β : ℝ) : ℕ → List ℝ
  | 0 => lognormalize (listAdd (likelihoods.getD 0 [])
      ((matVec (matPow T β) (prior.map fun p => Real.exp p ^ α)).map Real.log))
  | t + 1 => lognormalize (listAdd (likelihoods.getD (t + 1) [])
      ((matVec T ((forward_spec T likelihoods prior α β t).map Real.exp)).map Real.log))

/-- `hmm_backward(forward, states)` from hmm.py, with the per-iteration
`npr.rand(1)` draws injected as `draws` (consumed in iteration order, i.e.
in reverse time order).  The code reverses `forward` and `states`, seeds
the pass with `reverse[0]`, and at each later iteration `curT` combines
`np.log(T[rstates[curT]])` with `reverse[curT]`; both accumulated lists are
flipped at the end.  An empty `forward` hits `times[0]` → IndexError.
Out-of-range `getD` defaults are junk: every claim below exercises only
in-shape inputs. -/
def hmm_backward (T : List (List ℝ)) (fwd : List (List ℝ)) (states : List ℕ)
    (draws : List ℝ) : Except PyError (List (Option ℕ) × List (List ℝ)) :=
  match fwd with
  | [] => .error .indexError
  | f :: fs =>
      let rev := (f :: fs).reverse
      let rstates := states.reverse
      let L := (f :: fs).length
      let dists := (List.range L).map fun curT =>
        if curT = 0 then rev.getD 0 []
        else lognormalize (listAdd ((T.getD (rstates.getD curT 0) []).map Real.log)
          (rev.getD curT []))
      let resample := (List.range L).map fun k =>
        (smart_sampling [dists.getD k []] [draws.getD k 0]).getD 0 none
      .ok (resample.reverse, dists.reverse)

/-- `generate_0d_T_mat(n, bias)` from hmm.py: pre-transpose row `i` holds
`fill = (1 - bias) / (n - 1)` everywhere and `bias` on the diagonal; the
function returns the transpose.  For `n = 1` the Python expression
`(1 - bias) / (n - 1)` divides by the integer zero and raises
ZeroDivisionError (`n - 1 == 0` over the integers iff `n = 1`). -/
def generate_0d_T_mat (n : ℕ) (bias : ℝ) : Except PyError (List (List ℝ)) :=
  if n = 1 then .error .zeroDivisionError
  else
    let fill : ℝ := (1 - bias) / ((n : ℝ) - 1)
    let Tpre := (List.range n).map fun i =>
      (List.range n).map fun j => if j = i then bias else fill
    .ok ((List.range n).map fun i =>
      (List.range n).map fun j => (Tpre.getD j []).getD i 0)

end

theorem sum_map_exp_pos (w : List ℝ) (hw : w ≠ []) : 0 < (w.map Real.exp).sum := by
  cases w with
  | nil => exact absurd rfl hw
  | cons x xs =>
      have h1 : (0 : ℝ) ≤ (xs.map Real.exp).sum := by
        apply List.sum_nonneg
        intro y hy
        obtain ⟨z, _, rfl⟩ := List.mem_map.mp hy
        exact (Real.exp_pos z).le
      have h2 := Real.exp_pos x
      simp only [List.map_cons, List.sum_cons]
      linarith

theorem sumExp_lognormalize (w : List ℝ) (hw : w ≠ []) :
    ((lognormalize w).map Real.exp).sum = 1 := by
  have hS : 0 < (w.map Real.exp).sum := sum_map_exp_pos w hw
  unfold lognormalize
  rw [List.map_map]
  have hfun : (Real.exp ∘ fun t => t - Real.log ((w.map Real.exp).sum)) =
      fun t => Real.exp t * ((w.map Real.exp).sum)⁻¹ := by
    funext t
    simp [Function.comp, Real.exp_sub, Real.exp_log hS, div_eq_mul_inv]
  rw [hfun, List.sum_map_mul_right]
  exact mul_inv_cancel₀ hS.ne'

theorem foldl_max_mem : ∀ (xs : List ℝ) (x : ℝ), xs.foldl max x ∈ x :: xs := by
  intro xs
  induction xs with
  | nil => intro x; simp
  | cons y ys ih =>
      intro x
      have h1 : List.foldl max x (y :: ys) = List.foldl max (max x y) ys := rfl
      rw [h1]
      rcases List.mem_cons.mp (ih (max x y)) with h3 | h3
      · rcases max_choice x y with h4 | h4
        · rw [h3, h4]; exact List.mem_cons_self _ _
        · rw [h3, h4]; exact List.mem_cons_of_mem _ (List.mem_cons_self _ _)
      · exact List.mem_cons_of_mem _ (List.mem_cons_of_mem _ h3)

theorem le_foldl_max_self : ∀ (xs : List ℝ) (x : ℝ), x ≤ xs.foldl max x := by
  intro xs
  induction xs with
  | nil => intro x; simp
  | cons y ys ih =>
      intro x
      exact le_trans (le_max_left x y) (ih (max x y))

theorem le_foldl_max : ∀ (xs : List ℝ) (x z : ℝ), z ∈ x :: xs → z ≤ xs.foldl max x := by
  intro xs
  induction xs with
  | nil =>
      intro x z hz
      simp only [List.mem_singleton] at hz
      simp [hz]
  | cons y ys ih =>
      intro x z hz
      have h1 : List.foldl max x (y :: ys) = List.foldl max (max x y) ys := rfl
      rw [h1]
      rcases List.mem_cons.mp hz with h | h
      · subst h; exact le_trans (le_max_left z y) (le_foldl_max_self ys _)
      · rcases List.mem_cons.mp h with h2 | h2
        · subst h2; exact le_trans (le_max_right x z) (le_foldl_max_self ys _)
        · exact ih (max x y) z (List.mem_cons_of_mem _ h2)

theorem np_max_mem (l : List ℝ) (hl : l ≠ []) : np_max l ∈ l := by
  cases l with
  | nil => exact absurd rfl hl
  | cons x xs => exact foldl_max_mem xs x

theorem forward_loop_length (T : List (List ℝ)) :
    ∀ (rest : List (List ℝ)) (lastp : List ℝ),
      (forward_loop T lastp rest).length = rest.length := by
  intro rest
  induction rest with
  | nil => intro lastp; rfl
  | cons p rest' ih => intro lastp; simp [forward_loop, ih]

theorem listAdd_ne_nil (a b : List ℝ) (ha : a ≠ []) (hb : b ≠ []) : listAdd a b ≠ [] := by
  cases a with
  | nil => exact absurd rfl ha
  | cons x xs =>
      cases b with
      | nil => exact absurd rfl hb
      | cons y ys => simp [listAdd]

theorem matVec_log_ne_nil (M : List (List ℝ)) (v : List ℝ) (hM : M ≠ []) :
    (matVec M v).map Real.log ≠ [] := by
  cases M with
  | nil => exact absurd rfl hM
  | cons row rows => simp [matVec]

theorem matPow_ne_nil (T : List (List ℝ)) (β : ℝ) (hT : T ≠ []) : matPow T β ≠ [] := by
  cases T with
  | nil => exact absurd rfl hT
  | cons row rows => simp [matPow]

theorem forward_loop_rows (T : List (List ℝ)) (hT : T ≠ []) :
    ∀ (rest : List (List ℝ)) (lastp : List ℝ),
      (∀ l ∈ rest, l ≠ []) →
      ∀ row ∈ forward_loop T lastp rest, (row.map Real.exp).sum = 1 := by
  intro rest
  induction rest with
  | nil => intro lastp _ row hrow; simp [forward_loop] at hrow
  | cons p rest' ih =>
      intro lastp hne row hrow
      simp only [forward_loop] at hrow
      rcases List.mem_cons.mp hrow with h | h
      · subst h
        apply sumExp_lognormalize
        exact listAdd_ne_nil _ _ (hne p (List.mem_cons_self _ _)) (matVec_log_ne_nil T _ hT)
      · exact ih _ (fun l hl => hne l (List.mem_cons_of_mem _ hl)) row h

theorem getD_of_drop_cons {α : Type} (d : α) :
    ∀ (l : List α) (n : ℕ) (p : α) (r : List α), l.drop n = p :: r → l.getD n d = p := by
  intro l
  induction l with
  | nil => intro n p r h; simp at h
  | cons x xs ih =>
      intro n p r h
      cases n with
      | zero =>
          rw [List.drop_zero] at h
          rw [List.getD_cons_zero]
          exact (List.cons.injEq _ _ _ _ ▸ h).1
      | succ n' =>
          rw [List.drop_succ_cons] at h
          rw [List.getD_cons_succ]
          exact ih n' p r h

theorem drop_succ_of_drop_cons {α : Type} :
    ∀ (l : List α) (n : ℕ) (p : α) (r : List α), l.drop n = p :: r → l.drop (n + 1) = r := by
  intro l n p r h
  have h1 : l.drop (n + 1) = (l.drop n).drop 1 := by
    rw [List.drop_drop]
  rw [h1, h]
  rfl

theorem forward_loop_getD (T : List (List ℝ)) (Lks : List (List ℝ)) (prior : List ℝ)
    (α β : ℝ) :
    ∀ (rest : List (List ℝ)) (k : ℕ) (seed : List ℝ),
      Lks.drop (k + 1) = rest →
      seed = forward_spec T Lks prior α β k →
      ∀ j, j < rest.length →
        (forward_loop T seed rest).getD j [] = forward_spec T Lks prior α β (k + 1 + j) := by
  intro rest
  induction rest with
  | nil => intro k seed _ _ j hj; simp at hj
  | cons p rest' ih =>
      intro k seed hdrop hseed j hj
      have hp : Lks.getD (k + 1) [] = p := getD_of_drop_cons [] Lks (k + 1) p rest' hdrop
      have hdrop' : Lks.drop (k + 2) = rest' := drop_succ_of_drop_cons Lks (k + 1) p rest' hdrop
      have hv : lognormalize (listAdd p ((matVec T (seed.map Real.exp)).map Real.log)) =
          forward_spec T Lks prior α β (k + 1) := by
        rw [forward_spec, hp, hseed]
      cases j with
      | zero =>
          simp only [forward_loop, List.getD_cons_zero]
          rw [hv]
      | succ j' =>
          simp only [forward_loop, List.getD_cons_succ]
          have hk2 : k + 1 + (j' + 1) = (k + 1) + 1 + j' := by omega
          rw [hk2]
          exact ih (k + 1) _ hdrop' hv j' (by simpa using Nat.lt_of_succ_lt_succ hj)

theorem getD_range_map {α : Type} (f : ℕ → α) (d : α) (n c : ℕ) (hc : c < n) :
    ((List.range n).map f).getD c d = f c := by
  have hlen : c < ((List.range n).map f).length := by simpa using hc
  rw [List.getD_eq_getElem _ _ hlen]
  simp

theorem sum_range_ite (b f : ℝ) :
    ∀ (n c : ℕ), c < n →
      (((List.range n).map fun i => if i = c then b else f).sum) = b + ((n : ℝ) - 1) * f := by
  intro n
  induction n with
  | zero => intro c hc; exact absurd hc (by omega)
  | succ m ih =>
      intro c hc
      rw [List.range_succ, List.map_append, List.sum_append]
      simp only [List.map_cons, List.map_nil, List.sum_cons, List.sum_nil]
      by_cases h : c = m
      · subst h
        have hrw : ((List.range c).map fun i => if i = c then b else f) =
            (List.range c).map fun _ => f := by
          apply List.map_congr_left
          intro i hi
          have : i < c := List.mem_range.mp hi
          rw [if_neg (by omega)]
        rw [hrw, List.map_const', List.sum_replicate]
        simp only [List.length_range, if_pos rfl, add_zero, nsmul_eq_mul]
        push_cast
        ring
      · have hcm : c < m := by omega
        rw [ih c hcm, if_neg (fun hmc => h hmc.symm)]
        push_cast
        ring

/-- C2: for every likelihood sequence of length `L ≥ 1`, prior, matrix `T`
and tempering pair `(α, β)`, `hmm_forward`'s output row `t` equals the
recurrence stated by the design document (`forward_spec`): tempering is
applied elementwise before the linear-space matrix-vector product at
`t = 0` only, and every later step uses the plain product with no
tempering, each row finished with `lognormalize`. -/
theorem hmm_forward_matches_spec_recurrence (T : List (List ℝ)) (Lks : List (List ℝ))
    (prior : List ℝ) (α β : ℝ) (h : Lks ≠ []) :
    ∃ out, hmm_forward T Lks prior α β = Except.ok out ∧
      ∀ t, t < Lks.length → out.getD t [] = forward_spec T Lks prior α β t := by
  cases Lks with
  | nil => exact absurd rfl h
  | cons l0 rest =>
      refine ⟨_, rfl, ?_⟩
      intro t ht
      cases t with
      | zero => rfl
      | succ t' =>
          simp only [List.getD_cons_succ]
          have h2 := forward_loop_getD T (l0 :: rest) prior α β rest 0
            (lognormalize (listAdd l0
              ((matVec (matPow T β) (prior.map fun p => Real.exp p ^ α)).map Real.log)))
            rfl rfl t' (by simpa using Nat.lt_of_succ_lt_succ ht)
          have h3 : 0 + 1 + t' = t' + 1 := by omega
          rw [h3] at h2
          exact h2

theorem hmm_forward_matches_spec_recurrence_witness :
    ∃ out, hmm_forward [[1]] [[0]] [0] 1 1 = Except.ok out ∧
      ∀ t, t < 1 → out.getD t [] = forward_spec [[1]] [[0]] [0] 1 1 t :=
  hmm_forward_matches_spec_recurrence [[1]] [[0]] [0] 1 1 (by simp)

/-- C3: for shape-valid inputs (nonempty `T`, at least one likelihood row,
every likelihood row nonempty), `hmm_forward` returns exactly `L` rows and
every row exponentiates to a vector summing to `1`. -/
theorem hmm_forward_rows_lognormalized (T : List (List ℝ)) (likelihoods : List (List ℝ))
    (prior : List ℝ) (α β : ℝ) (hT : T ≠ []) (hne : likelihoods ≠ [])
    (hrows : ∀ l ∈ likelihoods, l ≠ []) :
    ∃ out, hmm_forward T likelihoods prior α β = Except.ok out ∧
      out.length = likelihoods.length ∧
      ∀ row ∈ out, (row.map Real.exp).sum = 1 := by
  cases likelihoods with
  | nil => exact absurd rfl hne
  | cons l0 rest =>
      refine ⟨_, rfl, ?_, ?_⟩
      · simp [forward_loop_length]
      · intro row hrow
        rcases List.mem_cons.mp hrow with hr | hr
        · subst hr
          apply sumExp_lognormalize
          exact listAdd_ne_nil _ _ (hrows l0 (List.mem_cons_self _ _))
            (matVec_log_ne_nil _ _ (matPow_ne_nil T β hT))
        · exact forward_loop_rows T hT rest _
            (fun l hl => hrows l (List.mem_cons_of_mem _ hl)) row hr

theorem hmm_forward_rows_lognormalized_witness :
    ∃ out, hmm_forward [[1]] [[0]] [0] 1 1 = Except.ok out ∧
      out.length = 1 ∧ ∀ row ∈ out, (row.map Real.exp).sum = 1 :=
  hmm_forward_rows_lognormalized [[1]] [[0]] [0] 1 1 (by simp) (by simp) (by simp)

/-- C4 (amended): when the cumulative walk over `v` stays strictly below
the draw `r` through the last index, `sample` silently returns no index at
all (Python `None`); it raises nothing — there is no
`SamplingInvariantError` in the code. -/
theorem sample_shortfall_returns_none {α : Type} [AddCommMonoid α] [LinearOrder α]
    (v : List α) (r : α)
    (h : ∀ j, j < v.length → (v.take (j + 1)).sum < r) :
    sample v r = none := by
  apply sampleGo_eq_none
  intro j hj
  rw [zero_add]
  exact h j hj

theorem sample_shortfall_returns_none_witness : sample ([3, 3] : List ℤ) 10 = none :=
  sample_shortfall_returns_none [3, 3] 10 (by decide)

/-- C4 (counterexample to the claim as stated): on a row whose rolling sum
never reaches the draw, `sample` does silently return no index — it
evaluates to `none` rather than failing with any error. -/
theorem sample_shortfall_cex : sample ([3, 3] : List ℤ) 10 = none := by decide

/-- C5 (amended): calling the forward filter with a zero-row likelihoods
matrix fails — with the index-out-of-bounds error Python raises at
`likelihoods[0]` — not with a dedicated empty-sequence error kind. -/
theorem hmm_forward_empty_indexError (T : List (List ℝ)) (prior : List ℝ) (α β : ℝ) :
    hmm_forward T [] prior α β = Except.error PyError.indexError := rfl

/-- C5 (counterexample to the claim as stated): the failure on an empty
likelihoods matrix is not an `emptySequenceError`. -/
theorem hmm_forward_empty_not_emptySequenceError :
    hmm_forward [[1]] [] [0] 1 1 ≠ Except.error PyError.emptySequenceError := by
  simp [hmm_forward]

/-- C6: on a normalized nonnegative row, a draw exactly equal to the
cumulative boundary after index `i` (the first boundary reaching the draw)
resolves to the lower index `i`: the comparison is `r ≤ rolling`. -/
theorem sample_boundary_tie_breaks_low {α : Type} [AddCommMonoid α] [LinearOrder α]
    [One α] (v : List α) (r : α) (i : ℕ)
    (hnn : ∀ x ∈ v, 0 ≤ x) (hsum : v.sum = 1)
    (hi : i < v.length)
    (hb : r = (v.take (i + 1)).sum)
    (hfirst : ∀ j, j < i → (v.take (j + 1)).sum < r) :
    sample v r = some i := by
  have h := sampleGo_eq_some r v 0 0 i hi
    (by rw [zero_add]; exact hb.le)
    (by intro j hj; rw [zero_add]; exact hfirst j hj)
  rw [Nat.zero_add] at h
  exact h

theorem sample_boundary_tie_breaks_low_witness :
    sample ([0, 1, 0] : List ℤ) 1 = some 1 :=
  sample_boundary_tie_breaks_low [0, 1, 0] 1 1
    (by decide) (by decide) (by decide) (by decide) (by decide)

/-- C8: the backward sampler is a pure function of the forward
distributions, the `states` sequence, `T` and the injected uniform draws:
two calls on identical inputs return identical trajectories and identical
smoothing sequences. -/
theorem hmm_backward_deterministic (T fwd : List (List ℝ)) (states : List ℕ)
    (draws : List ℝ) (T' fwd' : List (List ℝ)) (states' : List ℕ) (draws' : List ℝ)
    (h1 : T = T') (h2 : fwd = fwd') (h3 : states = states') (h4 : draws = draws') :
    hmm_backward T fwd states draws = hmm_backward T' fwd' states' draws' := by
  subst h1; subst h2; subst h3; subst h4; rfl

theorem hmm_backward_deterministic_witness :
    hmm_backward [[1]] [[0]] [0] [1/2] = hmm_backward [[1]] [[0]] [0] [1/2] :=
  hmm_backward_deterministic _ _ _ _ _ _ _ _ rfl rfl rfl rfl

/-- C9: for every nonempty row of (finite, real) log-weights, the
normalizing divisor of `smart_sampling`'s softmax is at least `1` — the
maximal entry contributes `exp 0 = 1` — hence it is never zero and the
division is well defined. -/
theorem softmax_divisor_ge_one (a : List ℝ) (ha : a ≠ []) :
    1 ≤ softmax_divisor a ∧ softmax_divisor a ≠ 0 := by
  have hmem := np_max_mem a ha
  have hx1 : Real.exp (np_max a - np_max a) ∈ a.map fun x => Real.exp (x - np_max a) :=
    List.mem_map_of_mem _ hmem
  have h1 : Real.exp (np_max a - np_max a) ≤ softmax_divisor a := by
    apply List.single_le_sum _ _ hx1
    intro x hx
    obtain ⟨z, _, rfl⟩ := List.mem_map.mp hx
    exact (Real.exp_pos _).le
  rw [sub_self, Real.exp_zero] at h1
  exact ⟨h1, by linarith⟩

theorem softmax_divisor_ge_one_witness :
    1 ≤ softmax_divisor [0] ∧ softmax_divisor [0] ≠ 0 :=
  softmax_divisor_ge_one [0] (by simp)

/-- C10: for `n ≥ 2` the fixed-bias generator returns an `n × n` matrix
whose every column sums exactly to `1`; for `n = 1` the expression
`(1 - bias) / (n - 1)` divides by zero. -/
theorem generate_0d_T_mat_columns_sum_one (n : ℕ) (bias : ℝ) (hn : 2 ≤ n) :
    (∃ M, generate_0d_T_mat n bias = Except.ok M ∧ M.length = n ∧
        (∀ row ∈ M, row.length = n) ∧
        ∀ c, c < n → (M.map fun row => row.getD c 0).sum = 1) ∧
    generate_0d_T_mat 1 bias = Except.error PyError.zeroDivisionError := by
  constructor
  · have hne : n ≠ 1 := by omega
    simp only [generate_0d_T_mat, if_neg hne]
    refine ⟨_, rfl, ?_, ?_, ?_⟩
    · simp
    · intro row hrow
      obtain ⟨i, hi, rfl⟩ := List.mem_map.mp hrow
      simp
    · intro c hc
      rw [List.map_map]
      have hnz : ((n : ℝ) - 1) ≠ 0 := by
        have h2 : (2 : ℝ) ≤ (n : ℝ) := by exact_mod_cast hn
        linarith
      have hcongr : ∀ i ∈ List.range n,
          ((fun row => row.getD c 0) ∘ fun i => (List.range n).map fun j =>
            ((((List.range n).map fun i' => (List.range n).map fun j' =>
              if j' = i' then bias else (1 - bias) / ((n : ℝ) - 1)).getD j []).getD i 0)) i
          = if i = c then bias else (1 - bias) / ((n : ℝ) - 1) := by
        intro i hi
        have hi' := List.mem_range.mp hi
        simp only [Function.comp]
        rw [getD_range_map _ _ _ _ hc, getD_range_map _ _ _ _ hc,
          getD_range_map _ _ _ _ hi']
      rw [List.map_congr_left hcongr, sum_range_ite _ _ _ _ hc, mul_comm,
        div_mul_cancel₀ _ hnz]
      ring
  · simp [generate_0d_T_mat]

theorem generate_0d_T_mat_columns_sum_one_witness :
    (∃ M, generate_0d_T_mat 3 (4/5) = Except.ok M ∧ M.length = 3 ∧
        (∀ row ∈ M, row.length = 3) ∧
        ∀ c, c < 3 → (M.map fun row => row.getD c 0).sum = 1) ∧
    generate_0d_T_mat 1 (4/5) = Except.error PyError.zeroDivisionError :=
  generate_0d_T_mat_columns_sum_one 3 (4/5) (by decide)

theorem lognorm_pair (a b : ℝ) :
    lognormalize [a, b] =
      [a - Real.log (Real.exp a + Real.exp b), b - Real.log (Real.exp a + Real.exp b)] := by
  simp [lognormalize]

theorem sample_pair (a b r : ℝ) :
    sample [a, b] r = if r ≤ a then some 0 else if r ≤ a + b then some 1 else none := by
  simp [sample, sampleGo, zero_add]

theorem softmax_row_pair_same (u : ℝ) : softmax_row [u, u] = [1/2, 1/2] := by
  have hmax : np_max [u, u] = u := by
    simp [np_max]
  have hdiv : softmax_divisor [u, u] = 2 := by
    norm_num [softmax_divisor, hmax, Real.exp_zero]
  norm_num [softmax_row, hmax, hdiv, Real.exp_zero]

/-- C1 (evaluation at the failing input): with `forward = [[0,0],[0,0]]`,
`states = [0,1]` and `T = [[1/2,1/4],[1/4,1/2]]`, the smoothing row the
backward pass produces at time `t = 0` is
`lognormalize(log(T[states[0]]) + forward[0])` — the transition row picked
by the *same-time* state `states[0] = 0` — and this differs from the value
`lognormalize(log(T[states[1]]) + forward[0])` that the claim (and the
code's own comment `p(x_t+1 | x_t)`) prescribes via `states[t+1]`. -/
theorem hmm_backward_row_from_same_time_state :
    (hmm_backward [[1/2, 1/4], [1/4, 1/2]] [[0, 0], [0, 0]] [0, 1] [0, 0]).toOption.map
        Prod.snd
      = some [lognormalize (listAdd (([(1 : ℝ)/2, 1/4]).map Real.log) [0, 0]), [0, 0]]
    ∧ lognormalize (listAdd (([(1 : ℝ)/2, 1/4]).map Real.log) [0, 0])
      ≠ lognormalize (listAdd (([(1 : ℝ)/4, 1/2]).map Real.log) [0, 0]) := by
  constructor
  · norm_num [hmm_backward, List.range_succ, Except.toOption]
  · have hlt : Real.log (1/4 : ℝ) < Real.log (1/2 : ℝ) :=
      Real.log_lt_log (by norm_num) (by norm_num)
    intro h
    rw [show listAdd (([(1 : ℝ)/2, 1/4]).map Real.log) [0, 0]
          = [Real.log (1/2 : ℝ), Real.log (1/4 : ℝ)] from by norm_num [listAdd],
        show listAdd (([(1 : ℝ)/4, 1/2]).map Real.log) [0, 0]
          = [Real.log (1/4 : ℝ), Real.log (1/2 : ℝ)] from by norm_num [listAdd]] at h
    rw [lognorm_pair, lognorm_pair, Real.exp_log (by norm_num : (0:ℝ) < 1/2),
      Real.exp_log (by norm_num : (0:ℝ) < 1/4)] at h
    injection h with h1 h2
    have heq : Real.log (1/2 : ℝ) = Real.log (1/4 : ℝ) := by
      have hc : (1/2 : ℝ) + 1/4 = 1/4 + 1/2 := by ring
      rw [hc] at h1
      linarith
    exact absurd heq (ne_of_gt hlt)

theorem log_half : Real.log (1/2 : ℝ) = -Real.log 2 := by
  rw [one_div, Real.log_inv]

theorem hmm_forward_identity_eval :
    hmm_forward [[1, 0], [0, 1]] [[0, 0], [0, 0]] [0, 0] 1 1 =
      Except.ok [[-Real.log 2, -Real.log 2], [-Real.log 2, -Real.log 2]] := by
  norm_num [hmm_forward, forward_loop, lognormalize, listAdd, matVec, matPow,
    Real.rpow_one, Real.exp_zero, Real.log_one, Real.exp_neg, Real.exp_log,
    Real.log_inv, log_half]

/-- C7 (evaluation at the failing input): with `S = 2`, identity `T`, the
two-step all-zero log-likelihoods and uniform prior `[0, 0]`, tempering
`(1, 1)`, the forward output is the (tempered, normalized) prior
`[-log 2, -log 2]` at both timesteps — the first half of the claim — but
feeding it to the backward pass with `states = [0, 0]` and draws
`[9/10, 3/10]` yields the non-constant trajectory `[0, 1]`: the last entry
is drawn freely from `forward[L-1]`, so the trajectory is not constant for
every draw sequence.  (The chosen draws give the same two sampled indices
whether `log 0` is read as Lean's junk value `0` or as numpy's `-inf`.) -/
theorem identity_T_backward_trajectory_not_constant :
    hmm_forward [[1, 0], [0, 1]] [[0, 0], [0, 0]] [0, 0] 1 1 =
      Except.ok [[-Real.log 2, -Real.log 2], [-Real.log 2, -Real.log 2]]
    ∧ (hmm_backward [[1, 0], [0, 1]] [[-Real.log 2, -Real.log 2], [-Real.log 2, -Real.log 2]]
        [0, 0] [9/10, 3/10]).toOption.map Prod.fst = some [some 0, some 1] := by
  constructor
  · exact hmm_forward_identity_eval
  · norm_num [hmm_backward, smart_sampling, List.range_succ, Except.toOption,
      Real.log_zero, Real.log_one, listAdd, lognormalize, Real.exp_neg,
      Real.exp_log, softmax_row_pair_same, sample_pair]
